import Mathlib

/-!
Verification of the Smart Voting System core (src/src/lib/crypto.ts and
src/src/lib/blockchain.ts) against its natural-language specification.

Modelling conventions (shallow embedding):
- JavaScript strings are modelled as lists of characters (Str below);
  string concatenation is list append, startsWith is List.isPrefixOf,
  repeat is List.replicate.
- Uint8Array values are modelled as lists of naturals (each entry in
  [0, 255] at the call sites covered by the claims).
- The external Web Crypto SHA-256 digest is not code of this repository;
  every function that calls it takes an explicit parameter
  digest : Str -> Str.  Randomness (crypto.getRandomValues) is likewise
  made explicit: a nonce oracle nonces : Nat -> Str gives the value of
  the i-th generateNonce() call, and a byte oracle rnd : Nat -> Nat gives
  the value of the i-th generateRandomBytes(1)[0] call.
- Thrown exceptions are modelled with Option: none is the thrown case.
- Date.now() values are passed in as explicit timestamp arguments.
-/

/-- A JavaScript string: a list of characters. -/
abbrev Str := List Char

/-- Embed a Lean string literal as a Str. -/
def str (s : String) : Str := s.data

/-! ### Decimal and hexadecimal rendering of numbers

JavaScript n.toString() and n.toString(16), for natural n, render the
decimal (resp. lowercase hexadecimal) digits with no leading zeros.
The recursion is fuel-based so that the kernel can evaluate it; the fuel
n + 1 always suffices (a natural below 10^f has at most f digits). -/

/-- The character of a decimal digit d in [0, 9]. -/
def digitChar (d : Nat) : Char := Char.ofNat (48 + d)

/-- The character of a hexadecimal digit d in [0, 15], lowercase as in
JavaScript toString(16). -/
def hexDigitChar (d : Nat) : Char :=
  if d < 10 then Char.ofNat (48 + d) else Char.ofNat (87 + d)

/-- Fuel-based accumulator loop behind natDecimal. -/
def natDecimalGo : Nat → Nat → List Char → List Char
  | 0, _, acc => acc
  | fuel + 1, n, acc =>
    if n < 10 then digitChar n :: acc
    else natDecimalGo fuel (n / 10) (digitChar (n % 10) :: acc)

/-- JavaScript n.toString() for a natural number n. -/
def natDecimal (n : Nat) : Str := natDecimalGo (n + 1) n []

/-- Fuel-based accumulator loop behind natHex. -/
def natHexGo : Nat → Nat → List Char → List Char
  | 0, _, acc => acc
  | fuel + 1, n, acc =>
    if n < 16 then hexDigitChar n :: acc
    else natHexGo fuel (n / 16) (hexDigitChar (n % 16) :: acc)

/-- JavaScript n.toString(16) for a natural number n. -/
def natHex (n : Nat) : Str := natHexGo (n + 1) n []

/-- JavaScript s.padStart(2, ch). -/
def padStart2 (ch : Char) (s : Str) : Str :=
  if s.length < 2 then List.replicate (2 - s.length) ch ++ s else s

/-- bufferToHex (src/src/lib/crypto.ts lines 17-21): each byte rendered as
two lowercase hex characters (toString(16).padStart(2, zero)), joined. -/
def bufferToHex (bytes : List Nat) : Str :=
  (bytes.map (fun b => padStart2 '0' (natHex b))).flatten

/-! ### GF(256) tables and arithmetic (src/src/lib/crypto.ts lines 123-148)

The source builds EXP_TABLE and LOG_TABLE by the imperative loop
initGF256: x starts at 1 and is doubled (reduced by 0x11b on overflow)
255 times, writing EXP_TABLE[i] = x and LOG_TABLE[x] = i at step i, and
finally EXP_TABLE[255] = EXP_TABLE[0].  Both tables start as Uint8Array
zero-filled.  The fold below performs exactly those writes in order. -/

/-- One iteration of the initGF256 loop.  State: (exp table, log table,
current x).  List.set is the in-place array write. -/
def gfInitStep : List Nat × List Nat × Nat → Nat → List Nat × List Nat × Nat :=
  fun s i =>
    let e := s.1.set i s.2.2
    let l := s.2.1.set s.2.2 i
    let x := s.2.2 * 2
    let x := if x &&& 0x100 ≠ 0 then x ^^^ 0x11b else x
    (e, l, x)

/-- The two tables after the full initGF256 run. -/
def gfTables : List Nat × List Nat :=
  let s := (List.range 255).foldl gfInitStep (List.replicate 256 0, List.replicate 256 0, 1)
  (s.1.set 255 (s.1.getD 0 0), s.2.1)

/-- EXP_TABLE of src/src/lib/crypto.ts. -/
def EXP_TABLE : List Nat := gfTables.1

/-- LOG_TABLE of src/src/lib/crypto.ts. -/
def LOG_TABLE : List Nat := gfTables.2

/-- gfMul (src/src/lib/crypto.ts lines 139-142). -/
def gfMul (a b : Nat) : Nat :=
  if a = 0 ∨ b = 0 then 0
  else EXP_TABLE.getD ((LOG_TABLE.getD a 0 + LOG_TABLE.getD b 0) % 255) 0

/-- gfDiv (src/src/lib/crypto.ts lines 144-148); none models the thrown
Division by zero error.  The JavaScript expression
(LOG_TABLE[a] - LOG_TABLE[b] + 255) % 255 is computed on plain numbers;
since table entries lie in [0, 254] the operand is the natural number
LOG_TABLE[a] + 255 - LOG_TABLE[b]. -/
def gfDiv (a b : Nat) : Option Nat :=
  if b = 0 then none
  else if a = 0 then some 0
  else some (EXP_TABLE.getD ((LOG_TABLE.getD a 0 + 255 - LOG_TABLE.getD b 0) % 255) 0)

/-! ### Shamir secret sharing (src/src/lib/crypto.ts lines 153-226) -/

/-- A share: an x identifier with a byte array y. -/
structure Share where
  x : Nat
  y : List Nat
deriving Repr, DecidableEq

/-- The inner evaluation loop of shamirSplit (lines 179-185): running
state y (accumulated value) and xPow (current power of x). -/
def evalPolyGo (x : Nat) : List Nat → Nat → Nat → Nat
  | [], y, _ => y
  | c :: cs, y, xPow => evalPolyGo x cs (y ^^^ gfMul c xPow) (gfMul xPow x)

/-- Evaluate the polynomial with the given coefficient list at x, exactly
as the loop at lines 179-185 does (y starts 0, xPow starts 1). -/
def evalPoly (coeffs : List Nat) (x : Nat) : Nat := evalPolyGo x coeffs 0 1

/-- The coefficient array for byte position b (lines 168-174): the
constant term is the secret byte, the k-1 further coefficients are drawn
from the random byte oracle.  Draw numbering is sequential across the
byte loop: byte b consumes draws b*(k-1), ..., b*(k-1)+k-2. -/
def coeffsAt (rnd : Nat → Nat) (k : Nat) (secret : List Nat) (b : Nat) : List Nat :=
  secret.getD b 0 :: (List.range (k - 1)).map (fun i => rnd (b * (k - 1) + i))

/-- shamirSplit (lines 153-192).  none models the two thrown errors
(threshold exceeds total shares; threshold below 2).  The imperative
original allocates n shares with x = 1..n and zero-filled y, then fills
y[b] of share with identifier x with the polynomial value at x for every
byte position b; the map below produces the same final shares. -/
def shamirSplit (rnd : Nat → Nat) (secret : List Nat) (n k : Nat) : Option (List Share) :=
  if n < k then none
  else if k < 2 then none
  else some ((List.range n).map (fun j =>
    { x := j + 1
      y := (List.range secret.length).map (fun b => evalPoly (coeffsAt rnd k secret b) (j + 1)) }))

/-- The inner Lagrange loop of shamirCombine (lines 209-217): product
over j of gfDiv x_j (x_i xor x_j), skipping j = i; propagates the
division-by-zero throw. -/
def lagrangeCoeff (shares : List Share) (i : Nat) : Option Nat :=
  (List.range shares.length).foldlM
    (fun acc j =>
      if i = j then pure acc
      else do
        let num := (shares.getD j ⟨0, []⟩).x
        let den := (shares.getD i ⟨0, []⟩).x ^^^ (shares.getD j ⟨0, []⟩).x
        let q ← gfDiv num den
        pure (gfMul acc q)) 1

/-- One byte position of shamirCombine (lines 205-223): xor-accumulate
gfMul of share byte and Lagrange coefficient. -/
def combineByte (shares : List Share) (b : Nat) : Option Nat :=
  (List.range shares.length).foldlM
    (fun value i => do
      let l ← lagrangeCoeff shares i
      pure (value ^^^ gfMul ((shares.getD i ⟨0, []⟩).y.getD b 0) l)) 0

/-- shamirCombine (lines 197-226).  none models the thrown errors (fewer
than 2 shares; division by zero inside). -/
def shamirCombine (shares : List Share) : Option (List Nat) :=
  if shares.length < 2 then none
  else (List.range (shares.getD 0 ⟨0, []⟩).y.length).mapM (combineByte shares)

/-! ### Share encoding and decoding (src/src/lib/crypto.ts lines 231-248) -/

/-- encodeShare (lines 231-233): SHARD- then x.toString().padStart(2, 0)
then a colon then the hex of y. -/
def encodeShare (share : Share) : Str :=
  str "SHARD-" ++ padStart2 '0' (natDecimal share.x) ++ [':'] ++ bufferToHex share.y

/-- Lowercase a single character, as the i regex flag does for A-Z. -/
def charLower (c : Char) : Char :=
  if 'A' ≤ c ∧ c ≤ 'Z' then Char.ofNat (c.toNat + 32) else c

/-- Case-insensitive literal match of a pattern at the front of a string,
returning the rest. -/
def stripCI : Str → Str → Option Str
  | [], s => some s
  | _ :: _, [] => none
  | c :: cs, d :: ds => if charLower c = charLower d then stripCI cs ds else none

/-- The regex class d (decimal digit). -/
def isDigitChar (c : Char) : Bool := 48 ≤ c.toNat ∧ c.toNat ≤ 57

/-- The regex class [a-f0-9] under the i flag: also A-F. -/
def isHexChar (c : Char) : Bool :=
  isDigitChar c ∨ (97 ≤ c.toNat ∧ c.toNat ≤ 102) ∨ (65 ≤ c.toNat ∧ c.toNat ≤ 70)

/-- parseInt(s, 10) on a nonempty all-digit string. -/
def digitsToNat (ds : Str) : Nat := ds.foldl (fun acc c => acc * 10 + (c.toNat - 48)) 0

/-- parseInt of one hex character (either case). -/
def hexCharVal (c : Char) : Nat :=
  if c.toNat ≤ 57 then c.toNat - 48
  else if 97 ≤ c.toNat then c.toNat - 87
  else c.toNat - 55

/-- s.match(regex .{1,2} global).map(b => parseInt(b, 16)): split into
two-character chunks (last chunk possibly a single character) and parse
each as hex. -/
def hexPairs : Str → List Nat
  | [] => []
  | [c] => [hexCharVal c]
  | c1 :: c2 :: rest => (hexCharVal c1 * 16 + hexCharVal c2) :: hexPairs rest

/-- decodeShare (lines 238-248): the anchored case-insensitive regex
SHARD-, capture of one or more decimal digits, a colon, capture of one or
more hex characters, end of string.  A maximal digit run followed by a
colon is equivalent to the greedy regex match because a digit never
matches the colon.  none models the thrown Invalid share format error. -/
def decodeShare (s : Str) : Option Share :=
  match stripCI (str "SHARD-") s with
  | none => none
  | some rest =>
    match rest.takeWhile isDigitChar, rest.dropWhile isDigitChar with
    | [], _ => none
    | ds, c :: hx =>
      if c = ':' ∧ hx ≠ [] ∧ hx.all isHexChar then some ⟨digitsToNat ds, hexPairs hx⟩
      else none
    | _, [] => none

/-! ### Proof of work (src/src/lib/crypto.ts lines 253-288) -/

/-- The result record of mineBlock. -/
structure MineResult where
  nonce : Str
  hash : Str
  attempts : Nat
deriving Repr, DecidableEq

/-- The mining loop of mineBlock (lines 261-280), fuel-based.  Each
iteration increments the attempt counter, draws the next nonce from the
oracle, hashes data ++ previousHash ++ nonce, returns on success or once
the counter exceeds 10000.  The cooperative yield every 100 attempts has
no effect on the returned value and is not modelled.  Starting from
attempt counter 0 the cap branch fires no later than fuel 10001, so the
fuel-exhausted branch (which mirrors the cap return) is never reached
from mineBlock. -/
def mineGo (digest : Str → Str) (nonces : Nat → Str) (data previousHash target : Str) :
    Nat → Nat → MineResult
  | 0, attempts =>
    ⟨nonces (attempts + 1), digest (data ++ previousHash ++ nonces (attempts + 1)), attempts + 1⟩
  | fuel + 1, attempts =>
    if List.isPrefixOf target (digest (data ++ previousHash ++ nonces (attempts + 1))) then
      ⟨nonces (attempts + 1), digest (data ++ previousHash ++ nonces (attempts + 1)), attempts + 1⟩
    else if attempts + 1 > 10000 then
      ⟨nonces (attempts + 1), digest (data ++ previousHash ++ nonces (attempts + 1)), attempts + 1⟩
    else mineGo digest nonces data previousHash target fuel (attempts + 1)

/-- mineBlock (lines 253-281): target is difficulty zero characters. -/
def mineBlock (digest : Str → Str) (nonces : Nat → Str) (data previousHash : Str)
    (difficulty : Nat) : MineResult :=
  mineGo digest nonces data previousHash (List.replicate difficulty '0') 10001 0

/-- verifyProofOfWork (lines 286-288): hash.startsWith(zero repeated
difficulty times).  A pure function of its two arguments. -/
def verifyProofOfWork (hash : Str) (difficulty : Nat) : Bool :=
  List.isPrefixOf (List.replicate difficulty '0') hash

/-- Whether the i-th nonce draw would satisfy the proof-of-work target
for the given mining call: the success test of loop iteration i. -/
def drawConforms (digest : Str → Str) (nonces : Nat → Str) (data previousHash : Str)
    (difficulty : Nat) (i : Nat) : Bool :=
  List.isPrefixOf (List.replicate difficulty '0') (digest (data ++ previousHash ++ nonces i))

/-! ### Blockchain (src/src/lib/blockchain.ts) -/

/-- Block (src/src/lib/blockchain.ts lines 19-28). -/
structure Block where
  index : Nat
  timestamp : Nat
  encryptedVote : Str
  voterHash : Str
  previousHash : Str
  nonce : Str
  hash : Str
  difficulty : Nat
deriving Repr, DecidableEq

/-- BlockchainState (lines 30-35).  The JavaScript Map with string keys
is modelled as an insertion-ordered association list with unique keys;
Map.set overwrites in place or appends, Map.size is the list length. -/
structure BlockchainState where
  chain : List Block
  pendingVotes : List (Str × Block)
  isValid : Bool
  lastValidated : Nat

/-- GENESIS_BLOCK (lines 38-47). -/
def GENESIS_BLOCK : Block where
  index := 0
  timestamp := 1700000000000
  encryptedVote := str "GENESIS"
  voterHash := List.replicate 64 '0'
  previousHash := List.replicate 64 '0'
  nonce := List.replicate 32 '0'
  hash := str "GENESIS_HASH_ELECTORAL_COMMISSION_2024"
  difficulty := 4

/-- createBlockchain (lines 52-59); now is the Date.now() reading. -/
def createBlockchain (now : Nat) : BlockchainState where
  chain := [GENESIS_BLOCK]
  pendingVotes := []
  isValid := true
  lastValidated := now

/-- JavaScript Map.prototype.set on the association-list model: replace
the value of an existing key in place, otherwise append. -/
def mapSet : List (Str × Block) → Str → Block → List (Str × Block)
  | [], k, v => [(k, v)]
  | (k0, v0) :: rest, k, v =>
    if k0 = k then (k0, v) :: rest else (k0, v0) :: mapSet rest k v

/-- JavaScript Map.prototype.get on the association-list model. -/
def mapGet : List (Str × Block) → Str → Option Block
  | [], _ => none
  | (k0, v0) :: rest, k => if k0 = k then some v0 else mapGet rest k

/-- JSON string escaping as performed by JSON.stringify on the values
serialized here: quote and backslash get a backslash, the common control
characters get their short escapes, other control characters get a
four-digit lowercase unicode escape, everything else is itself. -/
def jsonEscChar (c : Char) : List Char :=
  if c = '"' then ['\\', '"']
  else if c = '\\' then ['\\', '\\']
  else if c.toNat = 8 then ['\\', 'b']
  else if c.toNat = 9 then ['\\', 't']
  else if c.toNat = 10 then ['\\', 'n']
  else if c.toNat = 12 then ['\\', 'f']
  else if c.toNat = 13 then ['\\', 'r']
  else if c.toNat < 32 then
    ['\\', 'u', '0', '0', hexDigitChar (c.toNat / 16), hexDigitChar (c.toNat % 16)]
  else [c]

/-- JSON.stringify of a string value. -/
def jsonStr (s : Str) : Str := '"' :: (s.map jsonEscChar).flatten ++ ['"']

/-- JSON.stringify of the blockData object built in addVote (lines
94-101): fields index, timestamp, encryptedVote, voterHash, previousHash,
difficulty, in insertion order.  This is the data string handed to
mineBlock. -/
def mineSerialization (index timestamp : Nat) (encryptedVote voterHash previousHash : Str)
    (difficulty : Nat) : Str :=
  str "\x7b\"index\":" ++ natDecimal index
  ++ str ",\"timestamp\":" ++ natDecimal timestamp
  ++ str ",\"encryptedVote\":" ++ jsonStr encryptedVote
  ++ str ",\"voterHash\":" ++ jsonStr voterHash
  ++ str ",\"previousHash\":" ++ jsonStr previousHash
  ++ str ",\"difficulty\":" ++ natDecimal difficulty
  ++ str "\x7d"

/-- JSON.stringify of the object hashed by calculateBlockHash (lines
64-74): fields index, timestamp, encryptedVote, voterHash, previousHash,
nonce, in that order; difficulty is not serialized. -/
def calcSerialization (index timestamp : Nat) (encryptedVote voterHash previousHash nonce : Str) :
    Str :=
  str "\x7b\"index\":" ++ natDecimal index
  ++ str ",\"timestamp\":" ++ natDecimal timestamp
  ++ str ",\"encryptedVote\":" ++ jsonStr encryptedVote
  ++ str ",\"voterHash\":" ++ jsonStr voterHash
  ++ str ",\"previousHash\":" ++ jsonStr previousHash
  ++ str ",\"nonce\":" ++ jsonStr nonce
  ++ str "\x7d"

/-- calculateBlockHash (lines 64-74) applied to a block. -/
def calculateBlockHash (digest : Str → Str) (b : Block) : Str :=
  digest (calcSerialization b.index b.timestamp b.encryptedVote b.voterHash b.previousHash b.nonce)

/-- addVote (lines 84-133).  now is the Date.now() reading used for the
block timestamp (the same call also feeds lastValidated; the later
Date.now() readings only produce the wall-clock miningTime, which is not
part of the modelled result).  Returns the new state and the new block.
The tail read state.chain[state.chain.length - 1] is total here with
GENESIS_BLOCK as the (unreachable for nonempty chains) default. -/
def addVote (digest : Str → Str) (nonces : Nat → Str) (now : Nat) (state : BlockchainState)
    (encryptedVote voterHash : Str) (difficulty : Nat) : BlockchainState × Block :=
  let previousBlock := state.chain.getD (state.chain.length - 1) GENESIS_BLOCK
  let data := mineSerialization (previousBlock.index + 1) now encryptedVote voterHash
    previousBlock.hash difficulty
  let r := mineBlock digest nonces data previousBlock.hash difficulty
  let newBlock : Block :=
    { index := previousBlock.index + 1
      timestamp := now
      encryptedVote := encryptedVote
      voterHash := voterHash
      previousHash := previousBlock.hash
      nonce := r.nonce
      hash := r.hash
      difficulty := difficulty }
  ({ chain := state.chain ++ [newBlock]
     pendingVotes := mapSet state.pendingVotes voterHash newBlock
     isValid := true
     lastValidated := now }, newBlock)

/-- The result record of validateChain (lines 138-142). -/
structure ValidationResult where
  isValid : Bool
  invalidBlockIndex : Option Nat
  error : Option Str
deriving Repr, DecidableEq

/-- The per-block body of the validateChain loop (lines 153-211): the
five checks in source order, returning the error message of the first
failing check, or none when all five pass. -/
def checkBlock (digest : Str → Str) (previousBlock currentBlock : Block) (i : Nat) :
    Option Str :=
  if currentBlock.index ≠ previousBlock.index + 1 then
    some (str "Index discontinuity at block " ++ natDecimal i)
  else if currentBlock.previousHash ≠ previousBlock.hash then
    some (str "Hash chain broken at block " ++ natDecimal i)
  else if calculateBlockHash digest currentBlock ≠ currentBlock.hash then
    some (str "Hash mismatch at block " ++ natDecimal i)
  else if ¬ verifyProofOfWork currentBlock.hash currentBlock.difficulty then
    some (str "Invalid PoW at block " ++ natDecimal i)
  else if currentBlock.timestamp < previousBlock.timestamp then
    some (str "Timestamp violation at block " ++ natDecimal i)
  else none

/-- The validateChain loop over blocks 1, 2, ...: previous block, the
remaining blocks, and the running index. -/
def validateGo (digest : Str → Str) : Block → List Block → Nat → ValidationResult
  | _, [], _ => ⟨true, none, none⟩
  | prev, cur :: rest, i =>
    match checkBlock digest prev cur i with
    | some e => ⟨false, some i, some e⟩
    | none => validateGo digest cur rest (i + 1)

/-- validateChain (lines 138-214): empty chain and genesis-index checks,
then the loop from block 1. -/
def validateChain (digest : Str → Str) (chain : List Block) : ValidationResult :=
  match chain with
  | [] => ⟨false, some 0, some (str "Empty chain")⟩
  | b0 :: rest =>
    if b0.index ≠ 0 then ⟨false, some 0, some (str "Invalid genesis block")⟩
    else validateGo digest b0 rest 1

/-- The result record of getVoteStatistics (lines 220-225). -/
structure VoteStatistics where
  totalBlocks : Nat
  uniqueVoters : Nat
  lastBlockTime : Option Nat
  chainIntegrity : Bool
deriving Repr, DecidableEq

/-- getVoteStatistics (lines 220-235). -/
def getVoteStatistics (state : BlockchainState) : VoteStatistics :=
  let lastBlock := state.chain.getD (state.chain.length - 1) GENESIS_BLOCK
  { totalBlocks := state.chain.length - 1
    uniqueVoters := state.pendingVotes.length
    lastBlockTime := if lastBlock.index > 0 then some lastBlock.timestamp else none
    chainIntegrity := state.isValid }

/-- The per-call inputs of one addVote invocation: the vote payload and
voter hash, the requested difficulty, the Date.now() reading, and the
nonce oracle consumed by that call of mineBlock. -/
structure VoteRequest where
  encryptedVote : Str
  voterHash : Str
  difficulty : Nat
  now : Nat
  nonces : Nat → Str

/-- Thread a sequence of addVote calls through the state. -/
def applyVotes (digest : Str → Str) (state : BlockchainState) : List VoteRequest →
    BlockchainState
  | [] => state
  | r :: rs =>
    applyVotes digest (addVote digest r.nonces r.now state r.encryptedVote r.voterHash
      r.difficulty).1 rs

/-! ### Helper lemmas -/

/-- A replicate of zeros is a prefix exactly when the string is long
enough and its first d characters are all zero. -/
lemma replicate_zero_isPrefixOf_iff (d : Nat) (l : List Char) :
    List.isPrefixOf (List.replicate d '0') l = true ↔
      d ≤ l.length ∧ ∀ c ∈ l.take d, c = '0' := by
  induction d generalizing l with
  | zero => simp [List.isPrefixOf]
  | succ d ih =>
    cases l with
    | nil => simp [List.isPrefixOf, List.replicate]
    | cons c cs =>
      simp only [List.replicate, List.isPrefixOf, Bool.and_eq_true, beq_iff_eq, ih,
        List.length_cons, List.take_succ_cons, List.mem_cons, forall_eq_or_imp]
      constructor
      · rintro ⟨h0, hlen, hall⟩
        exact ⟨by omega, h0.symm, hall⟩
      · rintro ⟨hlen, h0, hall⟩
        exact ⟨h0.symm, by omega, hall⟩

/-! ### Claim C3 -/

/-- C3: for every hash string and difficulty d at most the length of the
hash, verifyProofOfWork hash d returns true exactly when the first d
characters of hash are all the zero character.  (Purity is inherent: the
embedding of verifyProofOfWork is a function of its two arguments only.) -/
theorem verifyProofOfWork_c3 (hash : Str) (d : Nat) (hd : d ≤ hash.length) :
    verifyProofOfWork hash d = true ↔ ∀ c ∈ hash.take d, c = '0' := by
  unfold verifyProofOfWork
  rw [replicate_zero_isPrefixOf_iff]
  exact ⟨fun h => h.2, fun h => ⟨hd, h⟩⟩

/-- Witness for C3 at a concrete hash and difficulty. -/
theorem verifyProofOfWork_c3_witness :
    (2 ≤ (str "00ab").length) ∧
    (verifyProofOfWork (str "00ab") 2 = true ↔ ∀ c ∈ (str "00ab").take 2, c = '0') :=
  ⟨by decide, verifyProofOfWork_c3 (str "00ab") 2 (by decide)⟩

/-! ### Claim C5 -/

/-- C5: for operands in [0, 255], gfDiv throws (returns none) exactly
when b = 0; for nonzero b it returns 0 when a = 0 and otherwise the
table expression EXP_TABLE[(LOG_TABLE[a] - LOG_TABLE[b] + 255) mod 255]
(written on naturals as LOG_TABLE[a] + 255 - LOG_TABLE[b], which is equal
because table entries lie in [0, 254]). -/
theorem gfDiv_c5 (a b : Nat) (_ha : a ≤ 255) (_hb : b ≤ 255) :
    (gfDiv a b = none ↔ b = 0) ∧
    (b ≠ 0 → a = 0 → gfDiv a b = some 0) ∧
    (b ≠ 0 → a ≠ 0 →
      gfDiv a b =
        some (EXP_TABLE.getD ((LOG_TABLE.getD a 0 + 255 - LOG_TABLE.getD b 0) % 255) 0)) := by
  unfold gfDiv
  by_cases hb0 : b = 0
  · simp [hb0]
  · by_cases ha0 : a = 0 <;> simp [hb0, ha0]

/-- Witness for C5: division by zero throws, and zero numerator yields
zero. -/
theorem gfDiv_c5_witness : gfDiv 6 0 = none ∧ gfDiv 0 3 = some 0 :=
  ⟨(gfDiv_c5 6 0 (by decide) (by decide)).1.mpr rfl,
   (gfDiv_c5 0 3 (by decide) (by decide)).2.1 (by decide) rfl⟩

/-! ### Claim C6 -/

/-- C6: shamirSplit throws (returns none) exactly when k is below 2 or
exceeds n; on success it returns exactly n shares whose x identifiers
are 1, 2, ..., n in order (hence distinct and exactly the values 1..n)
and whose y arrays each have one byte per secret byte. -/
theorem shamirSplit_c6 (rnd : Nat → Nat) (secret : List Nat) (n k : Nat) :
    (shamirSplit rnd secret n k = none ↔ (k < 2 ∨ n < k)) ∧
    (∀ shares, shamirSplit rnd secret n k = some shares →
      shares.length = n ∧
      shares.map Share.x = (List.range n).map (· + 1) ∧
      ∀ sh ∈ shares, sh.y.length = secret.length) := by
  constructor
  · unfold shamirSplit
    by_cases h1 : n < k <;> by_cases h2 : k < 2 <;> simp [h1, h2]
  · intro shares hs
    unfold shamirSplit at hs
    by_cases h1 : n < k
    · simp [h1] at hs
    by_cases h2 : k < 2
    · simp [h1, h2] at hs
    simp only [h1, h2, if_false, Option.some.injEq] at hs
    subst hs
    refine ⟨by simp, ?_, ?_⟩
    · simp [List.map_map]
    · intro sh hmem
      simp only [List.mem_map, List.mem_range] at hmem
      obtain ⟨j, _, rfl⟩ := hmem
      simp

set_option maxRecDepth 10000 in
/-- Witness for C6: a violated precondition throws; a valid call yields
three shares. -/
theorem shamirSplit_c6_witness :
    shamirSplit (fun _ => 0) [7] 1 2 = none ∧
    ([⟨1, [1]⟩, ⟨2, [1]⟩, ⟨3, [1]⟩] : List Share).length = 3 := by
  refine ⟨(shamirSplit_c6 (fun _ => 0) [7] 1 2).1.mpr (by decide), ?_⟩
  exact ((shamirSplit_c6 (fun _ => 0) [7] 3 2).2 [⟨1, [1]⟩, ⟨2, [1]⟩, ⟨3, [1]⟩] (by decide)).1

/-! ### Claim C4 -/

set_option maxRecDepth 10000 in
/-- C4 (code bug): combining both shares of shamirSplit on the one-byte
secret 5 with n = 2, k = 2 and all random coefficient draws equal to 0
reconstructs the byte 3, not the original secret 5.  The root cause is
initGF256: it generates the tables from repeated doubling, but 2 has
multiplicative order 51 (not 255) in GF(256) modulo 0x11b, so EXP_TABLE
cycles with period 51 and LOG_TABLE is 0 for the 204 field elements that
are not powers of 2. -/
theorem shamir_c4_failing_eval :
    (shamirSplit (fun _ => 0) [5] 2 2).bind shamirCombine = some [3] ∧
    (shamirSplit (fun _ => 0) [5] 2 2).bind shamirCombine ≠ some [5] := by decide

/-! ### Claim C2 -/

/-- Full characterization of the mining loop, by induction on the fuel.
Starting the loop at attempt counter lo with fuel 10001 - lo, the result
r is the draw at index r.attempts, where r.attempts is the first index
in (lo, 10001] whose draw conforms, or 10001 if no such index exists. -/
lemma mineGo_characterization (digest : Str → Str) (nonces : Nat → Str)
    (data previousHash : Str) (difficulty : Nat) :
    ∀ fuel attempts, attempts + fuel = 10001 → attempts ≤ 10000 →
      attempts + 1 ≤
        (mineGo digest nonces data previousHash (List.replicate difficulty '0')
          fuel attempts).attempts ∧
      (mineGo digest nonces data previousHash (List.replicate difficulty '0')
          fuel attempts).attempts ≤ 10001 ∧
      (mineGo digest nonces data previousHash (List.replicate difficulty '0')
          fuel attempts).nonce =
        nonces (mineGo digest nonces data previousHash (List.replicate difficulty '0')
          fuel attempts).attempts ∧
      (mineGo digest nonces data previousHash (List.replicate difficulty '0')
          fuel attempts).hash =
        digest (data ++ previousHash ++
          nonces (mineGo digest nonces data previousHash (List.replicate difficulty '0')
            fuel attempts).attempts) ∧
      (drawConforms digest nonces data previousHash difficulty
          (mineGo digest nonces data previousHash (List.replicate difficulty '0')
            fuel attempts).attempts = true ∨
        (mineGo digest nonces data previousHash (List.replicate difficulty '0')
          fuel attempts).attempts = 10001) ∧
      (∀ i, attempts + 1 ≤ i →
        i < (mineGo digest nonces data previousHash (List.replicate difficulty '0')
          fuel attempts).attempts →
        drawConforms digest nonces data previousHash difficulty i = false) := by
  intro fuel
  induction fuel with
  | zero => intro attempts h1 h2; omega
  | succ fuel ih =>
    intro attempts h1 h2
    by_cases hc : List.isPrefixOf (List.replicate difficulty '0')
        (digest (data ++ previousHash ++ nonces (attempts + 1))) = true
    · simp only [mineGo, hc, if_true]
      refine ⟨le_refl _, by omega, by trivial, by trivial, Or.inl hc, ?_⟩
      intro i hi hlt
      omega
    · rw [Bool.not_eq_true] at hc
      by_cases hcap : attempts + 1 > 10000
      · simp only [mineGo, hc, Bool.false_eq_true, if_false, hcap, if_true]
        refine ⟨le_refl _, by omega, by trivial, by trivial, Or.inr (by omega), ?_⟩
        intro i hi hlt
        omega
      · simp only [mineGo, hc, Bool.false_eq_true, if_false, hcap, if_true]
        have hrec := ih (attempts + 1) (by omega) (by omega)
        refine ⟨by omega, hrec.2.1, hrec.2.2.1, hrec.2.2.2.1, hrec.2.2.2.2.1, ?_⟩
        intro i hi hlt
        rcases Nat.eq_or_lt_of_le hi with heq | hgt
        · subst heq
          exact hc
        · exact hrec.2.2.2.2.2 i hgt hlt

/-- C2 (amended): the cap check attempts greater than 10000 runs only
after the counter was incremented, so mineBlock draws up to 10001
nonces, not 10000.  The returned record is the draw at index
r.attempts: its nonce is that draw, its hash is
digest(data ++ previousHash ++ nonce), no draw with smaller positive
index conforms, and either the returned draw conforms or r.attempts =
10001 (the silent best-effort return, which never fails). -/
theorem mineBlock_c2 (digest : Str → Str) (nonces : Nat → Str) (data previousHash : Str)
    (difficulty : Nat) :
    1 ≤ (mineBlock digest nonces data previousHash difficulty).attempts ∧
    (mineBlock digest nonces data previousHash difficulty).attempts ≤ 10001 ∧
    (mineBlock digest nonces data previousHash difficulty).nonce =
      nonces (mineBlock digest nonces data previousHash difficulty).attempts ∧
    (mineBlock digest nonces data previousHash difficulty).hash =
      digest (data ++ previousHash ++
        nonces (mineBlock digest nonces data previousHash difficulty).attempts) ∧
    (drawConforms digest nonces data previousHash difficulty
        (mineBlock digest nonces data previousHash difficulty).attempts = true ∨
      (mineBlock digest nonces data previousHash difficulty).attempts = 10001) ∧
    (∀ i, 1 ≤ i → i < (mineBlock digest nonces data previousHash difficulty).attempts →
      drawConforms digest nonces data previousHash difficulty i = false) :=
  mineGo_characterization digest nonces data previousHash difficulty 10001 0 (by omega)
    (by omega)

/-- The constant digest used by the C2 counterexample: every hash is the
single character 1, so no draw ever conforms at positive difficulty. -/
def ceDigest : Str → Str := fun _ => str "1"

/-- The nonce oracle of the C2 counterexample: draws 1..10000 are the
string a, every later draw is the string b. -/
def ceNonces : Nat → Str := fun i => if i ≤ 10000 then str "a" else str "b"

/-- C2 counterexample: at difficulty 1 under ceDigest no draw ever
conforms (in particular neither draw 10000 nor draw 10001), yet mineBlock
makes 10001 attempts and returns the 10001st drawn nonce b, which
differs from the 10000th draw a - so the loop does not terminate at an
attempt ceiling of 10000 returning the last nonce tried within it. -/
theorem mineBlock_c2_counterexample :
    drawConforms ceDigest ceNonces (str "d") (str "p") 1 10000 = false ∧
    drawConforms ceDigest ceNonces (str "d") (str "p") 1 10001 = false ∧
    (mineBlock ceDigest ceNonces (str "d") (str "p") 1).attempts = 10001 ∧
    (mineBlock ceDigest ceNonces (str "d") (str "p") 1).nonce = str "b" ∧
    ceNonces 10000 = str "a" ∧
    str "b" ≠ str "a" := by
  have hconf : ∀ i, drawConforms ceDigest ceNonces (str "d") (str "p") 1 i = false := by
    intro i
    simp [drawConforms, ceDigest, List.isPrefixOf, str]
  have h := mineGo_characterization ceDigest ceNonces (str "d") (str "p") 1 10001 0
    (by omega) (by omega)
  have hmb : mineBlock ceDigest ceNonces (str "d") (str "p") 1 =
      mineGo ceDigest ceNonces (str "d") (str "p") (List.replicate 1 '0') 10001 0 := rfl
  have hatt : (mineGo ceDigest ceNonces (str "d") (str "p")
      (List.replicate 1 '0') 10001 0).attempts = 10001 := by
    rcases h.2.2.2.2.1 with hx | hx
    · rw [hconf] at hx
      cases hx
    · exact hx
  have hn := h.2.2.1
  rw [hatt] at hn
  refine ⟨hconf 10000, hconf 10001, by rw [hmb, hatt], ?_, by norm_num [ceNonces], by decide⟩
  rw [hmb, hn]
  norm_num [ceNonces]

/-! ### Claim C10 -/

/-- Every addVote call returns a state whose isValid flag is the literal
true, so the flag propagates through any fold of addVote calls. -/
lemma applyVotes_isValid (digest : Str → Str) :
    ∀ (reqs : List VoteRequest) (st : BlockchainState), st.isValid = true →
      (applyVotes digest st reqs).isValid = true := by
  intro reqs
  induction reqs with
  | nil => intro st h; exact h
  | cons r rs ih => intro st _; exact ih _ rfl

/-- C10: for every digest, every starting time and every sequence of
addVote calls reachable from createBlockchain, the isValid field of the
state is true, and hence getVoteStatistics reports chainIntegrity true -
unconditionally, whatever the chain contains.  In particular the flag is
never derived from validateChain: the statement holds for every digest,
including ones under which validateChain would reject the chain. -/
theorem blockchain_c10 (digest : Str → Str) (now0 : Nat) (reqs : List VoteRequest) :
    (applyVotes digest (createBlockchain now0) reqs).isValid = true ∧
    (getVoteStatistics (applyVotes digest (createBlockchain now0) reqs)).chainIntegrity =
      true := by
  have h := applyVotes_isValid digest reqs (createBlockchain now0) rfl
  exact ⟨h, by simpa [getVoteStatistics] using h⟩

/-! ### Claim C8 -/

/-- The insertion-ordered key list of the association-list map. -/
def mapKeys (m : List (Str × Block)) : List Str := m.map Prod.fst

lemma length_mapKeys (m : List (Str × Block)) : (mapKeys m).length = m.length := by
  simp [mapKeys]

lemma mapKeys_mapSet (m : List (Str × Block)) (k : Str) (v : Block) :
    mapKeys (mapSet m k v) = if k ∈ mapKeys m then mapKeys m else mapKeys m ++ [k] := by
  induction m with
  | nil => simp [mapSet, mapKeys]
  | cons p rest ih =>
    obtain ⟨k0, v0⟩ := p
    by_cases hk : k0 = k
    · subst hk
      have h1 : mapSet ((k0, v0) :: rest) k0 v = (k0, v) :: rest := by
        simp [mapSet]
      rw [h1]
      have h2 : k0 ∈ mapKeys ((k0, v0) :: rest) := List.mem_cons_self _ _
      rw [if_pos h2]
      rfl
    · have h1 : mapSet ((k0, v0) :: rest) k v = (k0, v0) :: mapSet rest k v := by
        simp [mapSet, hk]
      rw [h1]
      have hmk : mapKeys ((k0, v0) :: mapSet rest k v) = k0 :: mapKeys (mapSet rest k v) := rfl
      rw [hmk, ih]
      have hmem_cons : (k ∈ mapKeys ((k0, v0) :: rest)) ↔ k ∈ mapKeys rest := by
        show k ∈ k0 :: mapKeys rest ↔ _
        rw [List.mem_cons]
        constructor
        · rintro (h | h)
          · exact absurd h.symm hk
          · exact h
        · intro h
          exact Or.inr h
      by_cases hmem : k ∈ mapKeys rest
      · rw [if_pos hmem, if_pos (hmem_cons.mpr hmem)]
        rfl
      · rw [if_neg hmem, if_neg (fun hcon => hmem (hmem_cons.mp hcon))]
        rfl

lemma mapSet_length_of_mem (m : List (Str × Block)) (k : Str) (v : Block)
    (h : k ∈ mapKeys m) : (mapSet m k v).length = m.length := by
  rw [← length_mapKeys, mapKeys_mapSet, if_pos h, length_mapKeys]

lemma mapGet_mapSet_self (m : List (Str × Block)) (k : Str) (v : Block) :
    mapGet (mapSet m k v) k = some v := by
  induction m with
  | nil => simp [mapSet, mapGet]
  | cons p rest ih =>
    obtain ⟨k0, v0⟩ := p
    by_cases hk : k0 = k <;> simp [mapSet, mapGet, hk, ih]

lemma applyVotes_chain_length (digest : Str → Str) :
    ∀ (reqs : List VoteRequest) (st : BlockchainState),
      (applyVotes digest st reqs).chain.length = st.chain.length + reqs.length := by
  intro reqs
  induction reqs with
  | nil => intro st; simp [applyVotes]
  | cons r rs ih =>
    intro st
    show (applyVotes digest
      (addVote digest r.nonces r.now st r.encryptedVote r.voterHash r.difficulty).1
      rs).chain.length = _
    rw [ih]
    have hlen : (addVote digest r.nonces r.now st r.encryptedVote r.voterHash
        r.difficulty).1.chain.length = st.chain.length + 1 := by
      simp [addVote]
    rw [hlen]
    simp
    omega

lemma applyVotes_keys (digest : Str → Str) :
    ∀ (reqs : List VoteRequest) (st : BlockchainState),
      mapKeys (applyVotes digest st reqs).pendingVotes =
        (reqs.map VoteRequest.voterHash).foldl
          (fun ks k => if k ∈ ks then ks else ks ++ [k]) (mapKeys st.pendingVotes) := by
  intro reqs
  induction reqs with
  | nil => intro st; simp [applyVotes]
  | cons r rs ih =>
    intro st
    show mapKeys (applyVotes digest
      (addVote digest r.nonces r.now st r.encryptedVote r.voterHash r.difficulty).1
      rs).pendingVotes = _
    rw [ih]
    simp only [List.map_cons, List.foldl_cons]
    have hpv : (addVote digest r.nonces r.now st r.encryptedVote r.voterHash
        r.difficulty).1.pendingVotes =
        mapSet st.pendingVotes r.voterHash
          (addVote digest r.nonces r.now st r.encryptedVote r.voterHash r.difficulty).2 := rfl
    rw [hpv, mapKeys_mapSet]

lemma foldl_insertKeys_nodup :
    ∀ (l ks : List Str), l.Nodup → (∀ a ∈ l, a ∉ ks) →
      l.foldl (fun ks k => if k ∈ ks then ks else ks ++ [k]) ks = ks ++ l := by
  intro l
  induction l with
  | nil => intro ks _ _; simp
  | cons a t ih =>
    intro ks hnd hdisj
    rw [List.foldl_cons, if_neg (hdisj a (by simp))]
    rw [ih (ks ++ [a]) (List.Nodup.of_cons hnd) ?_]
    · simp
    · intro b hb
      simp only [List.mem_append, List.mem_singleton]
      rintro (hbks | rfl)
      · exact hdisj b (by simp [hb]) hbks
      · exact (List.nodup_cons.mp hnd).1 hb

/-- C8: from createBlockchain, appending votes with pairwise distinct
voter hashes makes getVoteStatistics report uniqueVoters and totalBlocks
both equal to the number of votes (genesis excluded); a further vote
whose voter hash already occurred leaves uniqueVoters unchanged while
pendingVotes maps that voter hash to the newly appended block (the
unconditional Map.set overwrite). -/
theorem statistics_c8 (digest : Str → Str) (now0 : Nat) (reqs : List VoteRequest)
    (hdist : (reqs.map VoteRequest.voterHash).Nodup)
    (extra : VoteRequest) (hmem : extra.voterHash ∈ reqs.map VoteRequest.voterHash) :
    (getVoteStatistics (applyVotes digest (createBlockchain now0) reqs)).uniqueVoters =
      reqs.length ∧
    (getVoteStatistics (applyVotes digest (createBlockchain now0) reqs)).totalBlocks =
      reqs.length ∧
    (getVoteStatistics (addVote digest extra.nonces extra.now
        (applyVotes digest (createBlockchain now0) reqs) extra.encryptedVote extra.voterHash
        extra.difficulty).1).uniqueVoters =
      (getVoteStatistics (applyVotes digest (createBlockchain now0) reqs)).uniqueVoters ∧
    mapGet (addVote digest extra.nonces extra.now
        (applyVotes digest (createBlockchain now0) reqs) extra.encryptedVote extra.voterHash
        extra.difficulty).1.pendingVotes extra.voterHash =
      some (addVote digest extra.nonces extra.now
        (applyVotes digest (createBlockchain now0) reqs) extra.encryptedVote extra.voterHash
        extra.difficulty).2 := by
  have hkeys : mapKeys (applyVotes digest (createBlockchain now0) reqs).pendingVotes =
      reqs.map VoteRequest.voterHash := by
    rw [applyVotes_keys]
    have h0 : mapKeys (createBlockchain now0).pendingVotes = ([] : List Str) := rfl
    rw [h0, foldl_insertKeys_nodup _ [] hdist (by simp)]
    simp
  have huniq : (getVoteStatistics
      (applyVotes digest (createBlockchain now0) reqs)).uniqueVoters = reqs.length := by
    show (applyVotes digest (createBlockchain now0) reqs).pendingVotes.length = _
    rw [← length_mapKeys, hkeys, List.length_map]
  have hpv : (addVote digest extra.nonces extra.now
      (applyVotes digest (createBlockchain now0) reqs) extra.encryptedVote extra.voterHash
      extra.difficulty).1.pendingVotes =
      mapSet (applyVotes digest (createBlockchain now0) reqs).pendingVotes extra.voterHash
        (addVote digest extra.nonces extra.now
          (applyVotes digest (createBlockchain now0) reqs) extra.encryptedVote extra.voterHash
          extra.difficulty).2 := rfl
  refine ⟨huniq, ?_, ?_, ?_⟩
  · show (applyVotes digest (createBlockchain now0) reqs).chain.length - 1 = reqs.length
    rw [applyVotes_chain_length]
    show 1 + reqs.length - 1 = reqs.length
    omega
  · show (addVote digest extra.nonces extra.now
      (applyVotes digest (createBlockchain now0) reqs) extra.encryptedVote extra.voterHash
      extra.difficulty).1.pendingVotes.length = _
    rw [hpv, mapSet_length_of_mem _ _ _ (by rw [hkeys]; exact hmem)]
    rfl
  · rw [hpv, mapGet_mapSet_self]

/-- A concrete vote request used by the C8 witness. -/
def wReq (v h : String) : VoteRequest :=
  ⟨str v, str h, 0, 0, fun _ => str "n"⟩

/-- Witness for C8 at two distinct voter hashes. -/
theorem statistics_c8_witness :
    (getVoteStatistics (applyVotes (fun _ => str "") (createBlockchain 0)
      [wReq "v1" "a", wReq "v2" "b"])).uniqueVoters = 2 :=
  (statistics_c8 (fun _ => str "") 0 [wReq "v1" "a", wReq "v2" "b"] (by decide)
    (wReq "v3" "a") (by decide)).1

/-! ### Claim C7 -/

/-- Characterization of the validateChain loop from position j: it
returns valid when every remaining position passes checkBlock, and the
first failing position i with its first failing reason otherwise.
Induction on the number of remaining positions. -/
lemma validateGo_spec (digest : Str → Str) (c : List Block) :
    ∀ (n j : Nat), c.length - j = n → 1 ≤ j → j ≤ c.length →
      ((∀ i, j ≤ i → i < c.length →
          checkBlock digest (c.getD (i - 1) GENESIS_BLOCK) (c.getD i GENESIS_BLOCK) i = none) →
        validateGo digest (c.getD (j - 1) GENESIS_BLOCK) (c.drop j) j = ⟨true, none, none⟩) ∧
      (∀ i e, j ≤ i → i < c.length →
        (∀ m, j ≤ m → m < i →
          checkBlock digest (c.getD (m - 1) GENESIS_BLOCK) (c.getD m GENESIS_BLOCK) m = none) →
        checkBlock digest (c.getD (i - 1) GENESIS_BLOCK) (c.getD i GENESIS_BLOCK) i = some e →
        validateGo digest (c.getD (j - 1) GENESIS_BLOCK) (c.drop j) j =
          ⟨false, some i, some e⟩) := by
  intro n
  induction n with
  | zero =>
    intro j hn h1 h2
    have hj : j = c.length := by omega
    have hdropnil : c.drop j = [] := by
      subst hj
      exact List.drop_length c
    constructor
    · intro _
      rw [hdropnil]
      rfl
    · intro i e hi hlt _ _
      omega
  | succ n ihn =>
    intro j hn h1 h2
    have hjlt : j < c.length := by omega
    have hdrop : c.drop j = c.getD j GENESIS_BLOCK :: c.drop (j + 1) := by
      rw [List.drop_eq_getElem_cons hjlt]
      congr 1
      simp [List.getD_eq_getElem?_getD, List.getElem?_eq_getElem hjlt]
    rw [hdrop]
    cases hcb : checkBlock digest (c.getD (j - 1) GENESIS_BLOCK) (c.getD j GENESIS_BLOCK) j with
    | some e0 =>
      constructor
      · intro hall
        have hn0 := hall j (by omega) hjlt
        rw [hcb] at hn0
        exact Option.noConfusion hn0
      · intro i e hi hlt hfirst hsome
        have hij : i = j := by
          by_contra hne
          have hji : j < i := by omega
          have hnone := hfirst j (by omega) hji
          rw [hcb] at hnone
          cases hnone
        subst hij
        rw [hcb] at hsome
        injection hsome with he
        subst he
        simp only [validateGo]
        rw [hcb]
    | none =>
      have hrec := ihn (j + 1) (by omega) (by omega) (by omega)
      simp only [Nat.add_sub_cancel] at hrec
      constructor
      · intro hall
        have hres := hrec.1 (fun i hi hlt => hall i (by omega) hlt)
        simp only [validateGo, hcb]
        exact hres
      · intro i e hi hlt hfirst hsome
        by_cases hij : i = j
        · subst hij
          rw [hcb] at hsome
          cases hsome
        · have hres := hrec.2 i e (by omega) hlt
            (fun m hm hmlt => hfirst m (by omega) hmlt) hsome
          simp only [validateGo, hcb]
          exact hres

/-- C7: validateChain returns its verdict as data (the embedding is a
total function).  The empty chain is invalid with reason Empty chain at
index 0; a nonempty chain whose head has nonzero index is invalid at
index 0 with reason Invalid genesis block; otherwise the loop walks
positions 1, 2, ... in order, applies the five checks of checkBlock in
source order, stops at the first failing position i reporting
invalidBlockIndex i and the first failing reason there, and returns
valid with no index and no reason when every position passes. -/
theorem validateChain_c7 (digest : Str → Str) (chain : List Block) :
    (validateChain digest [] = ⟨false, some 0, some (str "Empty chain")⟩) ∧
    (∀ b0 rest, chain = b0 :: rest → b0.index ≠ 0 →
      validateChain digest chain = ⟨false, some 0, some (str "Invalid genesis block")⟩) ∧
    (∀ b0 rest, chain = b0 :: rest → b0.index = 0 →
      ((∀ i, 1 ≤ i → i < chain.length →
          checkBlock digest (chain.getD (i - 1) GENESIS_BLOCK) (chain.getD i GENESIS_BLOCK) i =
            none) →
        validateChain digest chain = ⟨true, none, none⟩) ∧
      (∀ i e, 1 ≤ i → i < chain.length →
        (∀ m, 1 ≤ m → m < i →
          checkBlock digest (chain.getD (m - 1) GENESIS_BLOCK) (chain.getD m GENESIS_BLOCK) m =
            none) →
        checkBlock digest (chain.getD (i - 1) GENESIS_BLOCK) (chain.getD i GENESIS_BLOCK) i =
          some e →
        validateChain digest chain = ⟨false, some i, some e⟩)) := by
  refine ⟨rfl, ?_, ?_⟩
  · rintro b0 rest rfl hg
    simp [validateChain, hg]
  · rintro b0 rest rfl hg
    have hspec := validateGo_spec digest (b0 :: rest) ((b0 :: rest).length - 1) 1 rfl
      (by omega) (by simp)
    have hvc : validateChain digest (b0 :: rest) = validateGo digest b0 rest 1 := by
      simp [validateChain, hg]
    constructor
    · intro hall
      rw [hvc]
      have hres := hspec.1 hall
      simpa using hres
    · intro i e hi hlt hfirst hsome
      rw [hvc]
      have hres := hspec.2 i e hi hlt hfirst hsome
      simpa using hres

/-- Witness for C7: the empty chain, a bad genesis, and an all-pass
one-block chain, each at a concrete digest. -/
theorem validateChain_c7_witness :
    validateChain (fun s => s) [] = ⟨false, some 0, some (str "Empty chain")⟩ ∧
    validateChain (fun s => s) [{ GENESIS_BLOCK with index := 1 }] =
      ⟨false, some 0, some (str "Invalid genesis block")⟩ ∧
    validateChain (fun s => s) [GENESIS_BLOCK] = ⟨true, none, none⟩ := by
  refine ⟨(validateChain_c7 (fun s => s) []).1, ?_, ?_⟩
  · exact (validateChain_c7 (fun s => s) [{ GENESIS_BLOCK with index := 1 }]).2.1 _ _ rfl
      (by decide)
  · refine ((validateChain_c7 (fun s => s) [GENESIS_BLOCK]).2.2 GENESIS_BLOCK [] rfl rfl).1 ?_
    intro i h1 h2
    exact absurd h1 (by simp at h2; omega)
/-! ### Claim C1 -/

/-- At difficulty 0 the proof-of-work target is the empty string, so the
very first draw conforms and mineBlock returns it, for every digest. -/
lemma mineBlock_difficulty_zero (digest : Str → Str) (nonces : Nat → Str) (data prev : Str) :
    mineBlock digest nonces data prev 0 = ⟨nonces 1, digest (data ++ prev ++ nonces 1), 1⟩ := by
  have h := mineGo_characterization digest nonces data prev 0 10001 0 (by omega) (by omega)
  have hc1 : drawConforms digest nonces data prev 0 1 = true := by
    simp [drawConforms, List.isPrefixOf]
  obtain ⟨hlo, hhi, hnonce, hhash, _hconf, hbefore⟩ := h
  have hatt : (mineGo digest nonces data prev (List.replicate 0 '0') 10001 0).attempts = 1 := by
    by_contra hne
    have hgt : 1 < (mineGo digest nonces data prev (List.replicate 0 '0') 10001 0).attempts := by
      omega
    have hfalse := hbefore 1 (by omega) hgt
    rw [hc1] at hfalse
    cases hfalse
  calc mineBlock digest nonces data prev 0
      = mineGo digest nonces data prev (List.replicate 0 '0') 10001 0 := rfl
    _ = ⟨(mineGo digest nonces data prev (List.replicate 0 '0') 10001 0).nonce,
         (mineGo digest nonces data prev (List.replicate 0 '0') 10001 0).hash,
         (mineGo digest nonces data prev (List.replicate 0 '0') 10001 0).attempts⟩ := rfl
    _ = ⟨nonces 1, digest (data ++ prev ++ nonces 1), 1⟩ := by
        rw [hnonce, hhash, hatt]

/-- The chain built by one addVote call (encrypted vote v, voter hash a,
difficulty 0, timestamp 1700000000001, constant nonce oracle) on the
state returned by createBlockchain, for a given digest function. -/
def c1Chain (digest : Str → Str) : List Block :=
  (addVote digest (fun _ => str "n") 1700000000001 (createBlockchain 1700000000000)
    (str "v") (str "a") 0).1.chain

/-- The string that mineBlock hashes for the single vote of c1Chain: the
JSON of the block data without nonce but with difficulty, then the
previous hash again, then the nonce. -/
def c1MinePre : Str :=
  mineSerialization 1 1700000000001 (str "v") (str "a")
    (str "GENESIS_HASH_ELECTORAL_COMMISSION_2024") 0
  ++ str "GENESIS_HASH_ELECTORAL_COMMISSION_2024" ++ str "n"

/-- The string that calculateBlockHash hashes when validateChain
revisits that block: the JSON of the block data with the nonce inside
and without the difficulty. -/
def c1CalcPre : Str :=
  calcSerialization 1 1700000000001 (str "v") (str "a")
    (str "GENESIS_HASH_ELECTORAL_COMMISSION_2024") (str "n")

/-- The single vote block of c1Chain. -/
def c1Block (digest : Str → Str) : Block :=
  { index := 1
    timestamp := 1700000000001
    encryptedVote := str "v"
    voterHash := str "a"
    previousHash := str "GENESIS_HASH_ELECTORAL_COMMISSION_2024"
    nonce := str "n"
    hash := digest c1MinePre
    difficulty := 0 }

/-- C1 (code bug): for every digest that does not collide on the two
distinct preimage strings c1CalcPre and c1MinePre (SHA-256 is assumed
collision resistant, and the two strings differ), validateChain rejects
the chain built by a single honest addVote call, reporting a hash
mismatch at block 1: addVote stores the digest of c1MinePre as the block
hash, while validateChain recomputes the digest of c1CalcPre. -/
theorem validateChain_c1_bug (digest : Str → Str)
    (hcoll : digest c1CalcPre ≠ digest c1MinePre) :
    validateChain digest (c1Chain digest) =
      ⟨false, some 1, some (str "Hash mismatch at block 1")⟩ := by
  have hchain : c1Chain digest = [GENESIS_BLOCK, c1Block digest] := by
    simp only [c1Chain, addVote, mineBlock_difficulty_zero]
    rfl
  rw [hchain]
  have h1 : ¬((c1Block digest).index ≠ GENESIS_BLOCK.index + 1) := by
    show ¬((1 : Nat) ≠ 0 + 1)
    omega
  have h2 : ¬((c1Block digest).previousHash ≠ GENESIS_BLOCK.hash) := by
    show ¬(str "GENESIS_HASH_ELECTORAL_COMMISSION_2024" ≠
      str "GENESIS_HASH_ELECTORAL_COMMISSION_2024")
    exact fun h => h rfl
  have h3 : calculateBlockHash digest (c1Block digest) ≠ (c1Block digest).hash := hcoll
  have hcb : checkBlock digest GENESIS_BLOCK (c1Block digest) 1 =
      some (str "Hash mismatch at block 1") := by
    unfold checkBlock
    rw [if_neg h1, if_neg h2, if_pos h3]
    rfl
  show validateGo digest GENESIS_BLOCK [c1Block digest] 1 = _
  simp only [validateGo]
  rw [hcb]

/-- Witness for C1 at the identity digest: the two preimages are
distinct strings, so the hypothesis holds and validation fails on the
honestly built one-vote chain. -/
theorem validateChain_c1_bug_witness :
    validateChain (fun s => s) (c1Chain (fun s => s)) =
      ⟨false, some 1, some (str "Hash mismatch at block 1")⟩ :=
  validateChain_c1_bug (fun s => s) (by decide)

/-! ### Claim C9: helper lemmas -/

/-- The value of a digit string continued from accumulator a, as
parseInt does. -/
def decVal (a : Nat) (ds : Str) : Nat :=
  ds.foldl (fun acc c => acc * 10 + (c.toNat - 48)) a

lemma digitsToNat_eq_decVal (ds : Str) : digitsToNat ds = decVal 0 ds := rfl

lemma decVal_append (a : Nat) (xs ys : Str) :
    decVal a (xs ++ ys) = decVal (decVal a xs) ys := by
  simp [decVal]

lemma digitChar_toNat : ∀ d, d < 10 → (digitChar d).toNat = 48 + d := by decide

lemma isDigitChar_digitChar : ∀ d, d < 10 → isDigitChar (digitChar d) = true := by decide

lemma natDecimalGo_append : ∀ (fuel n : Nat) (acc : List Char),
    natDecimalGo fuel n acc = natDecimalGo fuel n [] ++ acc := by
  intro fuel
  induction fuel with
  | zero => intro n acc; rfl
  | succ fuel ih =>
    intro n acc
    by_cases h : n < 10
    · simp [natDecimalGo, h]
    · rw [show natDecimalGo (fuel + 1) n acc =
          natDecimalGo fuel (n / 10) (digitChar (n % 10) :: acc) from by
        simp [natDecimalGo, h]]
      rw [show natDecimalGo (fuel + 1) n [] =
          natDecimalGo fuel (n / 10) [digitChar (n % 10)] from by
        simp [natDecimalGo, h]]
      rw [ih (n / 10) (digitChar (n % 10) :: acc), ih (n / 10) [digitChar (n % 10)]]
      simp

lemma natDecimal_ne_nil (n : Nat) : natDecimal n ≠ [] := by
  unfold natDecimal
  by_cases h : n < 10
  · simp [natDecimalGo, h]
  · rw [show natDecimalGo (n + 1) n [] =
        natDecimalGo n (n / 10) [digitChar (n % 10)] from by
      cases n with
      | zero => omega
      | succ m => simp [natDecimalGo, h]]
    rw [natDecimalGo_append]
    simp

lemma natDecimal_digits (n : Nat) : ∀ c ∈ natDecimal n, isDigitChar c = true := by
  unfold natDecimal
  have main : ∀ (fuel m : Nat) (acc : List Char),
      (∀ c ∈ acc, isDigitChar c = true) →
      ∀ c ∈ natDecimalGo fuel m acc, isDigitChar c = true := by
    intro fuel
    induction fuel with
    | zero => intro m acc hacc; exact hacc
    | succ fuel ih =>
      intro m acc hacc c hc
      by_cases h : m < 10
      · rw [show natDecimalGo (fuel + 1) m acc = digitChar m :: acc from by
          simp [natDecimalGo, h]] at hc
        rcases List.mem_cons.mp hc with rfl | hmem
        · exact isDigitChar_digitChar m h
        · exact hacc c hmem
      · rw [show natDecimalGo (fuel + 1) m acc =
            natDecimalGo fuel (m / 10) (digitChar (m % 10) :: acc) from by
          simp [natDecimalGo, h]] at hc
        refine ih (m / 10) (digitChar (m % 10) :: acc) ?_ c hc
        intro d hd
        rcases List.mem_cons.mp hd with rfl | hmem
        · exact isDigitChar_digitChar _ (Nat.mod_lt m (by omega))
        · exact hacc d hmem
  exact main (n + 1) n [] (by intro c hc; cases hc)

lemma natDecimalGo_val : ∀ (fuel n : Nat), n < 10 ^ fuel → ∀ a,
    decVal a (natDecimalGo fuel n []) =
      a * 10 ^ (natDecimalGo fuel n []).length + n := by
  intro fuel
  induction fuel with
  | zero =>
    intro n h a
    have hn : n = 0 := by simpa using h
    subst hn
    simp [natDecimalGo, decVal]
  | succ fuel ih =>
    intro n h a
    by_cases h10 : n < 10
    · rw [show natDecimalGo (fuel + 1) n [] = [digitChar n] from by simp [natDecimalGo, h10]]
      simp [decVal, digitChar_toNat n h10]
    · have hgo : natDecimalGo (fuel + 1) n [] =
          natDecimalGo fuel (n / 10) [] ++ [digitChar (n % 10)] := by
        rw [show natDecimalGo (fuel + 1) n [] =
            natDecimalGo fuel (n / 10) [digitChar (n % 10)] from by
          simp [natDecimalGo, h10]]
        exact natDecimalGo_append fuel (n / 10) [digitChar (n % 10)]
      have hdiv : n / 10 < 10 ^ fuel := by
        rw [Nat.div_lt_iff_lt_mul (by omega : 0 < 10)]
        calc n < 10 ^ (fuel + 1) := h
          _ = 10 ^ fuel * 10 := by rw [pow_succ]
      rw [hgo, decVal_append, ih (n / 10) hdiv a]
      have hmod : (digitChar (n % 10)).toNat = 48 + n % 10 :=
        digitChar_toNat _ (Nat.mod_lt n (by omega))
      have hd := Nat.div_add_mod n 10
      simp only [decVal, List.foldl_cons, List.foldl_nil, hmod, List.length_append,
        List.length_singleton]
      calc (a * 10 ^ (natDecimalGo fuel (n / 10) []).length + n / 10) * 10 +
            (48 + n % 10 - 48)
          = a * (10 ^ (natDecimalGo fuel (n / 10) []).length * 10) +
            (10 * (n / 10) + n % 10) := by ring_nf; omega
        _ = a * 10 ^ ((natDecimalGo fuel (n / 10) []).length + 1) + n := by
            rw [pow_succ, hd]

lemma digitsToNat_natDecimal (n : Nat) : digitsToNat (natDecimal n) = n := by
  have hlt : n < 10 ^ (n + 1) := by
    calc n < 10 ^ n := Nat.lt_pow_self (by omega) n
      _ ≤ 10 ^ (n + 1) := Nat.pow_le_pow_right (by omega) (by omega)
  have h := natDecimalGo_val (n + 1) n hlt 0
  unfold natDecimal
  rw [digitsToNat_eq_decVal, h]
  simp

lemma digitsToNat_replicate_zero_append :
    ∀ (m : Nat) (s : Str), digitsToNat (List.replicate m '0' ++ s) = digitsToNat s := by
  intro m
  induction m with
  | zero => intro s; simp
  | succ m ih =>
    intro s
    rw [List.replicate_succ, List.cons_append]
    show decVal 0 ('0' :: (List.replicate m '0' ++ s)) = _
    show decVal (0 * 10 + ('0'.toNat - 48)) (List.replicate m '0' ++ s) = _
    simpa using ih s

lemma padStart2_digitsToNat (x : Nat) :
    digitsToNat (padStart2 '0' (natDecimal x)) = x := by
  unfold padStart2
  by_cases h : (natDecimal x).length < 2
  · simp only [h, if_true]
    rw [digitsToNat_replicate_zero_append, digitsToNat_natDecimal]
  · simp only [h, if_false]
    exact digitsToNat_natDecimal x

lemma padStart2_digits (x : Nat) :
    ∀ c ∈ padStart2 '0' (natDecimal x), isDigitChar c = true := by
  unfold padStart2
  by_cases h : (natDecimal x).length < 2
  · simp only [h, if_true]
    intro c hc
    rcases List.mem_append.mp hc with hrep | hmem
    · rw [List.eq_of_mem_replicate hrep]
      decide
    · exact natDecimal_digits x c hmem
  · simp only [h, if_false]
    exact natDecimal_digits x

lemma padStart2_ne_nil (ch : Char) (s : Str) (hs : s ≠ []) : padStart2 ch s ≠ [] := by
  unfold padStart2
  by_cases h : s.length < 2
  · simp only [h, if_true]
    intro hcon
    rcases List.append_eq_nil.mp hcon with ⟨_, h2⟩
    exact hs h2
  · simp only [h, if_false]
    exact hs

lemma takeWhile_append_of_all (p : Char → Bool) :
    ∀ (l1 : Str) (c : Char) (l2 : Str), (∀ x ∈ l1, p x = true) → p c = false →
      (l1 ++ c :: l2).takeWhile p = l1 := by
  intro l1
  induction l1 with
  | nil => intro c l2 _ hc; simp [List.takeWhile_cons, hc]
  | cons a t ih =>
    intro c l2 hall hc
    rw [List.cons_append, List.takeWhile_cons, hall a (by simp)]
    rw [ih c l2 (fun x hx => hall x (by simp [hx])) hc]
    simp

lemma dropWhile_append_of_all (p : Char → Bool) :
    ∀ (l1 : Str) (c : Char) (l2 : Str), (∀ x ∈ l1, p x = true) → p c = false →
      (l1 ++ c :: l2).dropWhile p = c :: l2 := by
  intro l1
  induction l1 with
  | nil => intro c l2 _ hc; simp [List.dropWhile_cons, hc]
  | cons a t ih =>
    intro c l2 hall hc
    rw [List.cons_append, List.dropWhile_cons, hall a (by simp)]
    simpa using ih c l2 (fun x hx => hall x (by simp [hx])) hc

lemma stripCI_append : ∀ (pat rest : Str), stripCI pat (pat ++ rest) = some rest := by
  intro pat
  induction pat with
  | nil => intro rest; rfl
  | cons c cs ih =>
    intro rest
    rw [List.cons_append]
    show (if charLower c = charLower c then stripCI cs (cs ++ rest) else none) = some rest
    rw [if_pos rfl, ih]

set_option maxRecDepth 10000 in
lemma byteHexSpec : ∀ b, b < 256 →
    padStart2 '0' (natHex b) = [hexDigitChar (b / 16), hexDigitChar (b % 16)] := by decide

lemma hexCharVal_hexDigitChar : ∀ d, d < 16 → hexCharVal (hexDigitChar d) = d := by decide

lemma isHexChar_hexDigitChar : ∀ d, d < 16 → isHexChar (hexDigitChar d) = true := by decide

lemma bufferToHex_cons (b : Nat) (rest : List Nat) (hb : b < 256) :
    bufferToHex (b :: rest) =
      hexDigitChar (b / 16) :: hexDigitChar (b % 16) :: bufferToHex rest := by
  show padStart2 '0' (natHex b) ++ bufferToHex rest = _
  rw [byteHexSpec b hb]
  rfl

lemma hexPairs_bufferToHex : ∀ (y : List Nat), (∀ b ∈ y, b < 256) →
    hexPairs (bufferToHex y) = y := by
  intro y
  induction y with
  | nil => intro _; rfl
  | cons b rest ih =>
    intro hb
    have hb0 : b < 256 := hb b (by simp)
    rw [bufferToHex_cons b rest hb0]
    show (hexCharVal (hexDigitChar (b / 16)) * 16 + hexCharVal (hexDigitChar (b % 16))) ::
      hexPairs (bufferToHex rest) = b :: rest
    rw [hexCharVal_hexDigitChar _ (by omega), hexCharVal_hexDigitChar _ (Nat.mod_lt b (by omega))]
    rw [ih (fun x hx => hb x (by simp [hx]))]
    congr 1
    omega

lemma bufferToHex_all_hex : ∀ (y : List Nat), (∀ b ∈ y, b < 256) →
    ∀ c ∈ bufferToHex y, isHexChar c = true := by
  intro y
  induction y with
  | nil => intro _ c hc; cases hc
  | cons b rest ih =>
    intro hb c hc
    have hb0 : b < 256 := hb b (by simp)
    rw [bufferToHex_cons b rest hb0] at hc
    rcases List.mem_cons.mp hc with rfl | hc2
    · exact isHexChar_hexDigitChar _ (by omega)
    rcases List.mem_cons.mp hc2 with rfl | hc3
    · exact isHexChar_hexDigitChar _ (Nat.mod_lt b (by omega))
    · exact ih (fun x hx => hb x (by simp [hx])) c hc3

lemma decodeShare_strip (s rest : Str) (h : stripCI (str "SHARD-") s = some rest) :
    decodeShare s =
      match rest.takeWhile isDigitChar, rest.dropWhile isDigitChar with
      | [], _ => none
      | ds, c :: hx =>
        if c = ':' ∧ hx ≠ [] ∧ hx.all isHexChar then some ⟨digitsToNat ds, hexPairs hx⟩
        else none
      | _, [] => none := by
  unfold decodeShare
  rw [h]

/-! ### Claim C9 -/

/-- C9: decodeShare inverts encodeShare on every share with x at least 1
and a nonempty byte array y (entries in [0, 255], as Uint8Array
guarantees); for a share with empty y, the encoded string ends right
after the colon, the hex capture group is empty, and decodeShare rejects
it with the invalid-share-format error (none). -/
theorem shareCodec_c9 (x : Nat) (y : List Nat) (_hx : 1 ≤ x) (hy : y ≠ [])
    (hb : ∀ b ∈ y, b < 256) :
    decodeShare (encodeShare ⟨x, y⟩) = some ⟨x, y⟩ ∧
    decodeShare (encodeShare ⟨x, []⟩) = none := by
  have hpadne := padStart2_ne_nil '0' (natDecimal x) (natDecimal_ne_nil x)
  obtain ⟨p0, prest, hpad⟩ := List.exists_cons_of_ne_nil hpadne
  constructor
  · have henc : encodeShare ⟨x, y⟩ =
        str "SHARD-" ++ (padStart2 '0' (natDecimal x) ++ ':' :: bufferToHex y) := by
      show str "SHARD-" ++ padStart2 '0' (natDecimal x) ++ [':'] ++ bufferToHex y = _
      simp [List.append_assoc]
    rw [henc, decodeShare_strip _ _ (stripCI_append (str "SHARD-") _)]
    rw [takeWhile_append_of_all isDigitChar (padStart2 '0' (natDecimal x)) ':'
      (bufferToHex y) (padStart2_digits x) (by decide)]
    rw [dropWhile_append_of_all isDigitChar (padStart2 '0' (natDecimal x)) ':'
      (bufferToHex y) (padStart2_digits x) (by decide)]
    rw [hpad]
    show (if ':' = ':' ∧ bufferToHex y ≠ [] ∧ (bufferToHex y).all isHexChar then
        some ⟨digitsToNat (p0 :: prest), hexPairs (bufferToHex y)⟩ else none) =
      some (⟨x, y⟩ : Share)
    have hyne : bufferToHex y ≠ [] := by
      obtain ⟨b0, yrest, hy2⟩ := List.exists_cons_of_ne_nil hy
      rw [hy2, bufferToHex_cons b0 yrest (hb b0 (by rw [hy2]; simp))]
      simp
    have hall : (bufferToHex y).all isHexChar = true :=
      List.all_eq_true.mpr (fun c hc => bufferToHex_all_hex y hb c hc)
    rw [if_pos ⟨rfl, hyne, hall⟩, ← hpad, padStart2_digitsToNat x, hexPairs_bufferToHex y hb]
  · have henc2 : encodeShare ⟨x, []⟩ =
        str "SHARD-" ++ (padStart2 '0' (natDecimal x) ++ ':' :: ([] : Str)) := by
      show str "SHARD-" ++ padStart2 '0' (natDecimal x) ++ [':'] ++ bufferToHex [] = _
      simp [List.append_assoc, bufferToHex]
    rw [henc2, decodeShare_strip _ _ (stripCI_append (str "SHARD-") _)]
    rw [takeWhile_append_of_all isDigitChar (padStart2 '0' (natDecimal x)) ':'
      ([] : Str) (padStart2_digits x) (by decide)]
    rw [dropWhile_append_of_all isDigitChar (padStart2 '0' (natDecimal x)) ':'
      ([] : Str) (padStart2_digits x) (by decide)]
    rw [hpad]
    show (if ':' = ':' ∧ ([] : Str) ≠ [] ∧ ([] : Str).all isHexChar then
        some ⟨digitsToNat (p0 :: prest), hexPairs []⟩ else none) = none
    rw [if_neg (by simp)]

set_option maxRecDepth 10000 in
/-- Witness for C9 at a concrete share. -/
theorem shareCodec_c9_witness :
    decodeShare (encodeShare ⟨2, [0, 255]⟩) = some ⟨2, [0, 255]⟩ ∧
    decodeShare (encodeShare ⟨2, []⟩) = none :=
  shareCodec_c9 2 [0, 255] (by decide) (by decide) (by decide)

/-- Witness for C2 at a concrete digest and nonce oracle. -/
theorem mineBlock_c2_witness :
    1 ≤ (mineBlock ceDigest ceNonces (str "d") (str "p") 1).attempts :=
  (mineBlock_c2 ceDigest ceNonces (str "d") (str "p") 1).1
